import Mathlib

/-!
Shallow embedding of the cosmic-cipher password synthesizer.

Two implementations exist in the repository:
* the library version (`createRandomGenerator` + `generatePasswordFromSeed`),
  whose seed stream keeps a persistent position cursor, and
* the API-route version, whose inner `randomValues` helper rebuilds its output
  from seed index 0 on every call.

JavaScript numbers that hold the constraint parameters are modelled as `Int`
(`for (let i = 0; i < n; i++)` runs `n.toNat` times); bytes are `Nat` values
below 256.  `Buffer.from(seed, "hex")` decodes hex pairs and stops silently at
the first invalid pair; indexing a `Uint8Array` out of bounds yields
`undefined`, which is stored as the byte 0 — both quirks are reproduced by
`List.getD _ 0`.
-/

/-- The four fixed character-class alphabets, exactly as the `CHARSETS`
constant in the source (including its comments' intent being violated by
`lowercase`, which does contain the letter l). -/
structure Charsets where
  uppercase : String
  lowercase : String
  numbers : String
  symbols : String

def CHARSETS : Charsets :=
  { uppercase := "ABCDEFGHIJKLMNPQRSTUVWXYZ"
    lowercase := "abcdefghijklmnopqrstuvwxyz"
    numbers := "23456789"
    symbols := "!@#$%^&*+-=" }

/-- The `GenerateParams` interface: total length, per-class minimum counts and
per-class enable flags. -/
structure GenerateParams where
  length : Int
  minUpper : Int
  minLower : Int
  minNumbers : Int
  minSymbols : Int
  includeUpper : Bool
  includeLower : Bool
  includeNumbers : Bool
  includeSymbols : Bool

/-- The distinct `Error` messages thrown by `generatePasswordFromSeed`. -/
inductive PasswordError where
  | atLeastOneCharacterType
  | minimumsExceedLength
  | upperMinWithoutUpper
  | lowerMinWithoutLower
  | numbersMinWithoutNumbers
  | symbolsMinWithoutSymbols
  deriving DecidableEq, Repr

/-- Value of a hex digit, `none` on a non-hex character. -/
def hexVal (c : Char) : Option Nat :=
  if '0' ≤ c ∧ c ≤ '9' then some (c.toNat - '0'.toNat)
  else if 'a' ≤ c ∧ c ≤ 'f' then some (c.toNat - 'a'.toNat + 10)
  else if 'A' ≤ c ∧ c ≤ 'F' then some (c.toNat - 'A'.toNat + 10)
  else none

/-- Node's `Buffer.from(s, "hex")`: decode hex pairs, stopping silently at the
first pair that is not two hex digits (a lone trailing digit is dropped). -/
def decodeHex : List Char → List Nat
  | c1 :: c2 :: rest =>
    match hexVal c1, hexVal c2 with
    | some hi, some lo => (hi * 16 + lo) :: decodeHex rest
    | _, _ => []
  | _ => []

/-- One call `randomValues(n)` of the generator returned by the library's
`createRandomGenerator`, made explicit in the position state: it emits
`n` bytes, each `seedBytes[position % seedBytes.length]`, incrementing
`position` once per byte, and returns the bytes with the new position. -/
def nextBytes (seedBytes : List Nat) : Nat → Nat → List Nat × Nat
  | 0, position => ([], position)
  | n + 1, position =>
    let b := seedBytes.getD (position % seedBytes.length) 0
    let r := nextBytes seedBytes n (position + 1)
    (b :: r.1, r.2)

/-- A sequence of `randomValues` calls against one generator instance: the
concatenated output bytes and the final position. -/
def runCalls (seedBytes : List Nat) : List Nat → Nat → List Nat × Nat
  | [], position => ([], position)
  | n :: rest, position =>
    let r := nextBytes seedBytes n position
    let r2 := runCalls seedBytes rest r.2
    (r.1 ++ r2.1, r2.2)

/-- A minimum-draw or fill loop of the library `generatePasswordFromSeed`:
each iteration draws `randomValues(1)[0]` and appends
`alphabet[byte % alphabet.length]`. -/
def drawLoop (seedBytes : List Nat) (alphabet : List Char) :
    Nat → Nat → List Char × Nat
  | 0, position => ([], position)
  | n + 1, position =>
    let r := nextBytes seedBytes 1 position
    let c := alphabet.getD (r.1.getD 0 0 % alphabet.length) '?'
    let rest := drawLoop seedBytes alphabet n r.2
    (c :: rest.1, rest.2)

/-- The destructuring swap `[a[i], a[j]] = [a[j], a[i]]` on a list. -/
def swapList (l : List Char) (i j : Nat) : List Char :=
  (l.set i (l.getD j ' ')).set j (l.getD i ' ')

/-- The Fisher-Yates loop of the library version: with `i` counting down from
`passwordArray.length - 1` to 1, draw one byte, let `j = byte % (i + 1)`, and
swap positions `i` and `j`. -/
def shuffleLoop (seedBytes : List Nat) : List Char → Nat → Nat → List Char × Nat
  | arr, 0, position => (arr, position)
  | arr, i + 1, position =>
    let r := nextBytes seedBytes 1 position
    let j := r.1.getD 0 0 % (i + 2)
    shuffleLoop seedBytes (swapList arr (i + 1) j) i r.2

/-- The `allAvailableChars` pool: concatenation of the enabled classes'
alphabets in object-insertion order (uppercase, lowercase, numbers, symbols). -/
def allAvailableChars (p : GenerateParams) : List Char :=
  (if p.includeUpper then CHARSETS.uppercase.toList else [])
    ++ (if p.includeLower then CHARSETS.lowercase.toList else [])
    ++ (if p.includeNumbers then CHARSETS.numbers.toList else [])
    ++ (if p.includeSymbols then CHARSETS.symbols.toList else [])

/-- The post-validation body of the library `generatePasswordFromSeed`: the
four minimum-draw loops in canonical order, the fill loop over the pool, and
the Fisher-Yates shuffle; threads the generator position from 0 and returns
the final buffer together with the final position. -/
def assemblePassword (seedBytes : List Nat) (p : GenerateParams) :
    List Char × Nat :=
  let totalMin := p.minUpper + p.minLower + p.minNumbers + p.minSymbols
  let r1 := drawLoop seedBytes CHARSETS.uppercase.toList p.minUpper.toNat 0
  let r2 := drawLoop seedBytes CHARSETS.lowercase.toList p.minLower.toNat r1.2
  let r3 := drawLoop seedBytes CHARSETS.numbers.toList p.minNumbers.toNat r2.2
  let r4 := drawLoop seedBytes CHARSETS.symbols.toList p.minSymbols.toNat r3.2
  let pool := allAvailableChars p
  let r5 := drawLoop seedBytes pool (p.length - totalMin).toNat r4.2
  let buf := r1.1 ++ r2.1 ++ r3.1 ++ r4.1 ++ r5.1
  shuffleLoop seedBytes buf (buf.length - 1) r5.2

/-- Library `generatePasswordFromSeed` on decoded seed bytes, with the
generator position made explicit: validation in source order, then the
assembly.  Returns the character buffer together with the generator's final
position (the wrapper below discards the position). -/
def generatePasswordFromSeedCore (seedBytes : List Nat) (p : GenerateParams) :
    Except PasswordError (List Char × Nat) :=
  let totalMin := p.minUpper + p.minLower + p.minNumbers + p.minSymbols
  if p.includeUpper = false ∧ p.includeLower = false ∧ p.includeNumbers = false
      ∧ p.includeSymbols = false then
    .error .atLeastOneCharacterType
  else if totalMin > p.length then
    .error .minimumsExceedLength
  else if p.minUpper > 0 ∧ p.includeUpper = false then
    .error .upperMinWithoutUpper
  else if p.minLower > 0 ∧ p.includeLower = false then
    .error .lowerMinWithoutLower
  else if p.minNumbers > 0 ∧ p.includeNumbers = false then
    .error .numbersMinWithoutNumbers
  else if p.minSymbols > 0 ∧ p.includeSymbols = false then
    .error .symbolsMinWithoutSymbols
  else
    .ok (assemblePassword seedBytes p)

/-- The exported library `generatePasswordFromSeed`: decode the hex seed,
run the synthesis, return the password string. -/
def generatePasswordFromSeed (seed : String) (p : GenerateParams) :
    Except PasswordError String :=
  match generatePasswordFromSeedCore (decodeHex seed.toList) p with
  | .ok r => .ok (String.mk r.1)
  | .error e => .error e

/-- The route's inner `randomValues` helper: `result[i] = seedBytes[i %
seedBytes.length]`, re-indexed from 0 on every call (no persistent cursor). -/
def routeRandomValues (seedBytes : List Nat) (n : Nat) : List Nat :=
  (List.range n).map (fun i => seedBytes.getD (i % seedBytes.length) 0)

/-- A single `randomValues(1)[0]` draw in the route version. -/
def routeDraw1 (seedBytes : List Nat) : Nat :=
  (routeRandomValues seedBytes 1).getD 0 0

/-- A minimum-draw or fill loop of the route version. -/
def routeDrawLoop (seedBytes : List Nat) (alphabet : List Char) :
    Nat → List Char
  | 0 => []
  | n + 1 =>
    alphabet.getD (routeDraw1 seedBytes % alphabet.length) '?'
      :: routeDrawLoop seedBytes alphabet n

/-- The Fisher-Yates loop of the route version. -/
def routeShuffleLoop (seedBytes : List Nat) : List Char → Nat → List Char
  | arr, 0 => arr
  | arr, i + 1 =>
    routeShuffleLoop seedBytes
      (swapList arr (i + 1) (routeDraw1 seedBytes % (i + 2))) i

/-- The post-validation body of the route version: identical assembly
structure, but every draw goes through the stateless `randomValues` helper. -/
def routeAssemblePassword (seedBytes : List Nat) (p : GenerateParams) :
    List Char :=
  let totalMin := p.minUpper + p.minLower + p.minNumbers + p.minSymbols
  let b1 := routeDrawLoop seedBytes CHARSETS.uppercase.toList p.minUpper.toNat
  let b2 := routeDrawLoop seedBytes CHARSETS.lowercase.toList p.minLower.toNat
  let b3 := routeDrawLoop seedBytes CHARSETS.numbers.toList p.minNumbers.toNat
  let b4 := routeDrawLoop seedBytes CHARSETS.symbols.toList p.minSymbols.toNat
  let pool := allAvailableChars p
  let b5 := routeDrawLoop seedBytes pool (p.length - totalMin).toNat
  let buf := b1 ++ b2 ++ b3 ++ b4 ++ b5
  routeShuffleLoop seedBytes buf (buf.length - 1)

/-- The route file's `generatePasswordFromSeed` on decoded seed bytes:
identical validation order, then the stateless assembly. -/
def routeGeneratePasswordFromSeedCore (seedBytes : List Nat)
    (p : GenerateParams) : Except PasswordError (List Char) :=
  let totalMin := p.minUpper + p.minLower + p.minNumbers + p.minSymbols
  if p.includeUpper = false ∧ p.includeLower = false ∧ p.includeNumbers = false
      ∧ p.includeSymbols = false then
    .error .atLeastOneCharacterType
  else if totalMin > p.length then
    .error .minimumsExceedLength
  else if p.minUpper > 0 ∧ p.includeUpper = false then
    .error .upperMinWithoutUpper
  else if p.minLower > 0 ∧ p.includeLower = false then
    .error .lowerMinWithoutLower
  else if p.minNumbers > 0 ∧ p.includeNumbers = false then
    .error .numbersMinWithoutNumbers
  else if p.minSymbols > 0 ∧ p.includeSymbols = false then
    .error .symbolsMinWithoutSymbols
  else
    .ok (routeAssemblePassword seedBytes p)

/-- The route file's `generatePasswordFromSeed` on the hex seed string. -/
def routeGeneratePasswordFromSeed (seed : String) (p : GenerateParams) :
    Except PasswordError String :=
  match routeGeneratePasswordFromSeedCore (decodeHex seed.toList) p with
  | .ok cs => .ok (String.mk cs)
  | .error e => .error e

/-! ### Basic lemmas about the seed stream -/

theorem nextBytes_snd (sb : List Nat) : ∀ (n position : Nat),
    (nextBytes sb n position).2 = position + n := by
  intro n
  induction n with
  | zero => intro position; simp [nextBytes]
  | succ m ih =>
    intro position
    simp only [nextBytes, ih]
    omega

theorem nextBytes_fst_length (sb : List Nat) : ∀ (n position : Nat),
    (nextBytes sb n position).1.length = n := by
  intro n
  induction n with
  | zero => intro position; simp [nextBytes]
  | succ m ih => intro position; simp [nextBytes, ih]

theorem nextBytes_one (sb : List Nat) (position : Nat) :
    nextBytes sb 1 position =
      ([sb.getD (position % sb.length) 0], position + 1) := by
  simp [nextBytes]

theorem nextBytes_fst_getD (sb : List Nat) : ∀ (n position i : Nat), i < n →
    (nextBytes sb n position).1.getD i 0 =
      sb.getD ((position + i) % sb.length) 0 := by
  intro n
  induction n with
  | zero => intro position i hi; omega
  | succ m ih =>
    intro position i hi
    cases i with
    | zero => simp [nextBytes]
    | succ k =>
      have hk : k < m := by omega
      simp only [nextBytes, List.getD_cons_succ]
      rw [ih (position + 1) k hk]
      have harg : position + 1 + k = position + (k + 1) := by omega
      rw [harg]

theorem runCalls_snd (sb : List Nat) : ∀ (calls : List Nat) (position : Nat),
    (runCalls sb calls position).2 = position + calls.sum := by
  intro calls
  induction calls with
  | nil => intro position; simp [runCalls]
  | cons n rest ih =>
    intro position
    simp only [runCalls, ih, nextBytes_snd, List.sum_cons]
    omega

theorem runCalls_fst_length (sb : List Nat) :
    ∀ (calls : List Nat) (position : Nat),
    (runCalls sb calls position).1.length = calls.sum := by
  intro calls
  induction calls with
  | nil => intro position; simp [runCalls]
  | cons n rest ih =>
    intro position
    simp [runCalls, ih, nextBytes_fst_length]

theorem runCalls_fst_getD (sb : List Nat) :
    ∀ (calls : List Nat) (position i : Nat),
    i < (runCalls sb calls position).1.length →
    (runCalls sb calls position).1.getD i 0 =
      sb.getD ((position + i) % sb.length) 0 := by
  intro calls
  induction calls with
  | nil => intro position i hi; simp [runCalls] at hi
  | cons n rest ih =>
    intro position i hi
    simp only [runCalls]
    by_cases hn : i < n
    · rw [List.getD_append _ _ _ _ (by rw [nextBytes_fst_length]; exact hn)]
      exact nextBytes_fst_getD sb n position i hn
    · push_neg at hn
      rw [List.getD_append_right _ _ _ _
        (by rw [nextBytes_fst_length]; exact hn)]
      rw [nextBytes_fst_length, nextBytes_snd]
      have hlen : i - n < (runCalls sb rest (position + n)).1.length := by
        simp only [runCalls, List.length_append, nextBytes_fst_length,
          nextBytes_snd] at hi
        omega
      rw [ih (position + n) (i - n) hlen]
      have harg : position + n + (i - n) = position + i := by omega
      rw [harg]

/-! ### Lemmas about the draw loops -/

theorem drawLoop_snd (sb : List Nat) (a : List Char) :
    ∀ (n position : Nat), (drawLoop sb a n position).2 = position + n := by
  intro n
  induction n with
  | zero => intro position; simp [drawLoop]
  | succ m ih =>
    intro position
    simp only [drawLoop, ih, nextBytes_snd]
    omega

theorem drawLoop_fst_length (sb : List Nat) (a : List Char) :
    ∀ (n position : Nat), (drawLoop sb a n position).1.length = n := by
  intro n
  induction n with
  | zero => intro position; simp [drawLoop]
  | succ m ih => intro position; simp [drawLoop, ih]

theorem getD_mem_of_lt {l : List Char} {i : Nat} (d : Char)
    (h : i < l.length) : l.getD i d ∈ l := by
  rw [List.getD_eq_getElem l d h]
  exact List.getElem_mem h

theorem drawLoop_fst_mem (sb : List Nat) (a : List Char) (ha : a ≠ []) :
    ∀ (n position : Nat) (c : Char), c ∈ (drawLoop sb a n position).1 →
    c ∈ a := by
  intro n
  induction n with
  | zero => intro position c hc; simp [drawLoop] at hc
  | succ m ih =>
    intro position c hc
    simp only [drawLoop, List.mem_cons] at hc
    rcases hc with hc | hc
    · subst hc
      have hlen : 0 < a.length := List.length_pos.mpr ha
      exact getD_mem_of_lt _ (Nat.mod_lt _ hlen)
    · exact ih _ c hc

theorem drawLoop_fst_countP (sb : List Nat) (a : List Char) (ha : a ≠ [])
    (n position : Nat) :
    ((drawLoop sb a n position).1.countP fun c => decide (c ∈ a)) = n := by
  have hall : ∀ c ∈ (drawLoop sb a n position).1,
      (fun c => decide (c ∈ a)) c = true := by
    intro c hc
    simpa using drawLoop_fst_mem sb a ha n position c hc
  rw [List.countP_eq_length.mpr hall, drawLoop_fst_length]

/-! ### The swap is a permutation -/

theorem swapList_length (l : List Char) (i j : Nat) :
    (swapList l i j).length = l.length := by
  simp [swapList]

theorem getD_set_cons_perm : ∀ (xs : List Char) (j : Nat) (x : Char),
    j < xs.length → List.Perm (xs.getD j ' ' :: xs.set j x) (x :: xs) := by
  intro xs
  induction xs with
  | nil => intro j x hj; simp at hj
  | cons y ys ih =>
    intro j x hj
    cases j with
    | zero =>
      simp only [List.getD_cons_zero, List.set_cons_zero]
      exact List.Perm.swap x y ys
    | succ k =>
      have hk : k < ys.length := by simpa using hj
      simp only [List.getD_cons_succ, List.set_cons_succ]
      have h1 : List.Perm (ys.getD k ' ' :: y :: ys.set k x)
          (y :: ys.getD k ' ' :: ys.set k x) := List.Perm.swap y _ _
      have h2 : List.Perm (y :: ys.getD k ' ' :: ys.set k x)
          (y :: x :: ys) := List.Perm.cons y (ih k x hk)
      have h3 : List.Perm (y :: x :: ys) (x :: y :: ys) := List.Perm.swap x y ys
      exact (h1.trans h2).trans h3

theorem swapList_perm : ∀ (l : List Char) (i j : Nat),
    i < l.length → j < l.length → List.Perm (swapList l i j) l := by
  intro l
  induction l with
  | nil => intro i j hi hj; simp at hi
  | cons x xs ih =>
    intro i j hi hj
    cases i with
    | zero =>
      cases j with
      | zero => simp [swapList]
      | succ k =>
        have hk : k < xs.length := by simpa using hj
        simp only [swapList, List.getD_cons_succ, List.set_cons_zero,
          List.set_cons_succ, List.getD_cons_zero]
        exact getD_set_cons_perm xs k x hk
    | succ m =>
      cases j with
      | zero =>
        have hm : m < xs.length := by simpa using hi
        simp only [swapList, List.getD_cons_zero, List.set_cons_succ,
          List.set_cons_zero, List.getD_cons_succ]
        exact getD_set_cons_perm xs m x hm
      | succ k =>
        have hm : m < xs.length := by simpa using hi
        have hk : k < xs.length := by simpa using hj
        simp only [swapList, List.getD_cons_succ, List.set_cons_succ]
        exact List.Perm.cons x (ih m k hm hk)

/-! ### Lemmas about the shuffle loop -/

theorem shuffleLoop_snd (sb : List Nat) : ∀ (i : Nat) (arr : List Char)
    (position : Nat), (shuffleLoop sb arr i position).2 = position + i := by
  intro i
  induction i with
  | zero => intro arr position; simp [shuffleLoop]
  | succ m ih =>
    intro arr position
    simp only [shuffleLoop, ih, nextBytes_snd]
    omega

theorem shuffleLoop_fst_length (sb : List Nat) : ∀ (i : Nat) (arr : List Char)
    (position : Nat), (shuffleLoop sb arr i position).1.length = arr.length := by
  intro i
  induction i with
  | zero => intro arr position; simp [shuffleLoop]
  | succ m ih =>
    intro arr position
    simp only [shuffleLoop, ih, swapList_length]

theorem shuffleLoop_fst_perm (sb : List Nat) : ∀ (i : Nat) (arr : List Char)
    (position : Nat), i < arr.length →
    List.Perm (shuffleLoop sb arr i position).1 arr := by
  intro i
  induction i with
  | zero => intro arr position hi; simp [shuffleLoop]
  | succ m ih =>
    intro arr position hi
    simp only [shuffleLoop]
    have hj : (nextBytes sb 1 position).1.getD 0 0 % (m + 2) < arr.length := by
      have := Nat.mod_lt ((nextBytes sb 1 position).1.getD 0 0)
        (show 0 < m + 2 by omega)
      omega
    have harr : m < (swapList arr (m + 1)
        ((nextBytes sb 1 position).1.getD 0 0 % (m + 2))).length := by
      rw [swapList_length]; omega
    exact (ih _ _ harr).trans (swapList_perm arr _ _ hi hj)

/-- Shuffling never changes the count of characters satisfying a predicate
(for buffers long enough for the loop to be in bounds, or empty loops). -/
theorem shuffleLoop_fst_countP (sb : List Nat) (arr : List Char)
    (position : Nat) (q : Char → Bool) :
    ((shuffleLoop sb arr (arr.length - 1) position).1.countP q)
      = arr.countP q := by
  rcases Nat.eq_zero_or_pos arr.length with h0 | hpos
  · rw [show arr.length - 1 = 0 from by omega]
    simp [shuffleLoop]
  · exact List.Perm.countP_eq q
      (shuffleLoop_fst_perm sb (arr.length - 1) arr position (by omega))

/-! ### Properties of the assembly under a valid specification -/

theorem assemblePassword_fst_length (sb : List Nat) (p : GenerateParams)
    (h0u : 0 ≤ p.minUpper) (h0l : 0 ≤ p.minLower) (h0n : 0 ≤ p.minNumbers)
    (h0s : 0 ≤ p.minSymbols)
    (hsum : p.minUpper + p.minLower + p.minNumbers + p.minSymbols ≤ p.length) :
    (assemblePassword sb p).1.length = p.length.toNat := by
  simp only [assemblePassword, shuffleLoop_fst_length, List.length_append,
    drawLoop_fst_length]
  omega

theorem assemblePassword_snd (sb : List Nat) (p : GenerateParams)
    (h0u : 0 ≤ p.minUpper) (h0l : 0 ≤ p.minLower) (h0n : 0 ≤ p.minNumbers)
    (h0s : 0 ≤ p.minSymbols)
    (hsum : p.minUpper + p.minLower + p.minNumbers + p.minSymbols ≤ p.length) :
    (assemblePassword sb p).2 = p.length.toNat + (p.length.toNat - 1) := by
  simp only [assemblePassword, shuffleLoop_snd, drawLoop_snd,
    List.length_append, drawLoop_fst_length]
  omega

theorem assemblePassword_countP_upper (sb : List Nat) (p : GenerateParams) :
    p.minUpper.toNat ≤ (assemblePassword sb p).1.countP
      fun c => decide (c ∈ CHARSETS.uppercase.toList) := by
  simp only [assemblePassword]
  rw [shuffleLoop_fst_countP]
  simp only [List.countP_append]
  rw [drawLoop_fst_countP sb CHARSETS.uppercase.toList (by decide)]
  omega

theorem assemblePassword_countP_lower (sb : List Nat) (p : GenerateParams) :
    p.minLower.toNat ≤ (assemblePassword sb p).1.countP
      fun c => decide (c ∈ CHARSETS.lowercase.toList) := by
  simp only [assemblePassword]
  rw [shuffleLoop_fst_countP]
  simp only [List.countP_append]
  rw [drawLoop_fst_countP sb CHARSETS.lowercase.toList (by decide)]
  omega

theorem assemblePassword_countP_numbers (sb : List Nat) (p : GenerateParams) :
    p.minNumbers.toNat ≤ (assemblePassword sb p).1.countP
      fun c => decide (c ∈ CHARSETS.numbers.toList) := by
  simp only [assemblePassword]
  rw [shuffleLoop_fst_countP]
  simp only [List.countP_append]
  rw [drawLoop_fst_countP sb CHARSETS.numbers.toList (by decide)]
  omega

theorem assemblePassword_countP_symbols (sb : List Nat) (p : GenerateParams) :
    p.minSymbols.toNat ≤ (assemblePassword sb p).1.countP
      fun c => decide (c ∈ CHARSETS.symbols.toList) := by
  simp only [assemblePassword]
  rw [shuffleLoop_fst_countP]
  simp only [List.countP_append]
  rw [drawLoop_fst_countP sb CHARSETS.symbols.toList (by decide)]
  omega

/-- Under a valid specification all six validation checks pass and the core
returns the assembled password. -/
theorem core_valid (sb : List Nat) (p : GenerateParams)
    (hone : p.includeUpper = true ∨ p.includeLower = true
      ∨ p.includeNumbers = true ∨ p.includeSymbols = true)
    (hsum : p.minUpper + p.minLower + p.minNumbers + p.minSymbols ≤ p.length)
    (hiu : p.minUpper > 0 → p.includeUpper = true)
    (hil : p.minLower > 0 → p.includeLower = true)
    (hin : p.minNumbers > 0 → p.includeNumbers = true)
    (his : p.minSymbols > 0 → p.includeSymbols = true) :
    generatePasswordFromSeedCore sb p = .ok (assemblePassword sb p) := by
  have hc1 : ¬(p.includeUpper = false ∧ p.includeLower = false
      ∧ p.includeNumbers = false ∧ p.includeSymbols = false) := by
    intro h
    rcases hone with h' | h' | h' | h' <;>
      simp [h'] at h
  have hc2 : ¬(p.minUpper + p.minLower + p.minNumbers + p.minSymbols
      > p.length) := by omega
  have hc3 : ¬(p.minUpper > 0 ∧ p.includeUpper = false) := by
    intro h; exact absurd (hiu h.1) (by simp [h.2])
  have hc4 : ¬(p.minLower > 0 ∧ p.includeLower = false) := by
    intro h; exact absurd (hil h.1) (by simp [h.2])
  have hc5 : ¬(p.minNumbers > 0 ∧ p.includeNumbers = false) := by
    intro h; exact absurd (hin h.1) (by simp [h.2])
  have hc6 : ¬(p.minSymbols > 0 ∧ p.includeSymbols = false) := by
    intro h; exact absurd (his h.1) (by simp [h.2])
  simp only [generatePasswordFromSeedCore]
  rw [if_neg hc1, if_neg hc2, if_neg hc3, if_neg hc4, if_neg hc5, if_neg hc6]

/-! ### The route version depends only on the first decoded seed byte -/

theorem routeDraw1_eq (sb : List Nat) : routeDraw1 sb = sb.getD 0 0 := by
  simp [routeDraw1, routeRandomValues, List.range_succ]

theorem routeDrawLoop_congr {sb1 sb2 : List Nat}
    (h : routeDraw1 sb1 = routeDraw1 sb2) (a : List Char) :
    ∀ n : Nat, routeDrawLoop sb1 a n = routeDrawLoop sb2 a n := by
  intro n
  induction n with
  | zero => simp [routeDrawLoop]
  | succ m ih => simp [routeDrawLoop, h, ih]

theorem routeShuffleLoop_congr {sb1 sb2 : List Nat}
    (h : routeDraw1 sb1 = routeDraw1 sb2) :
    ∀ (i : Nat) (arr : List Char),
    routeShuffleLoop sb1 arr i = routeShuffleLoop sb2 arr i := by
  intro i
  induction i with
  | zero => intro arr; simp [routeShuffleLoop]
  | succ m ih =>
    intro arr
    simp only [routeShuffleLoop, h, ih]

theorem routeAssemblePassword_congr {sb1 sb2 : List Nat}
    (h : routeDraw1 sb1 = routeDraw1 sb2) (p : GenerateParams) :
    routeAssemblePassword sb1 p = routeAssemblePassword sb2 p := by
  simp only [routeAssemblePassword, routeDrawLoop_congr h,
    routeShuffleLoop_congr h]

theorem routeCore_congr {sb1 sb2 : List Nat}
    (h : routeDraw1 sb1 = routeDraw1 sb2) (p : GenerateParams) :
    routeGeneratePasswordFromSeedCore sb1 p
      = routeGeneratePasswordFromSeedCore sb2 p := by
  simp only [routeGeneratePasswordFromSeedCore,
    routeAssemblePassword_congr h]

/-! ### On constant seeds the two implementations coincide -/

theorem seedByte_const {sb : List Nat}
    (h : ∀ k, k < sb.length → sb.getD k 0 = sb.getD 0 0) (position : Nat) :
    sb.getD (position % sb.length) 0 = routeDraw1 sb := by
  rw [routeDraw1_eq]
  rcases sb with _ | ⟨b, rest⟩
  · simp
  · exact h _ (Nat.mod_lt _ (by simp))

theorem drawLoop_const {sb : List Nat}
    (hb : ∀ position, sb.getD (position % sb.length) 0 = routeDraw1 sb)
    (a : List Char) : ∀ (n position : Nat),
    (drawLoop sb a n position).1 = routeDrawLoop sb a n := by
  intro n
  induction n with
  | zero => intro position; simp [drawLoop, routeDrawLoop]
  | succ m ih =>
    intro position
    simp only [drawLoop, routeDrawLoop, nextBytes_one, List.getD_cons_zero,
      hb, ih]

theorem shuffleLoop_const {sb : List Nat}
    (hb : ∀ position, sb.getD (position % sb.length) 0 = routeDraw1 sb) :
    ∀ (i : Nat) (arr : List Char) (position : Nat),
    (shuffleLoop sb arr i position).1 = routeShuffleLoop sb arr i := by
  intro i
  induction i with
  | zero => intro arr position; simp [shuffleLoop, routeShuffleLoop]
  | succ m ih =>
    intro arr position
    simp only [shuffleLoop, routeShuffleLoop, nextBytes_one,
      List.getD_cons_zero, hb, ih]

theorem assemblePassword_const {sb : List Nat}
    (hb : ∀ position, sb.getD (position % sb.length) 0 = routeDraw1 sb)
    (p : GenerateParams) :
    (assemblePassword sb p).1 = routeAssemblePassword sb p := by
  simp only [assemblePassword, routeAssemblePassword, drawLoop_const hb,
    shuffleLoop_const hb]

theorem core_const {sb : List Nat}
    (hb : ∀ position, sb.getD (position % sb.length) 0 = routeDraw1 sb)
    (p : GenerateParams) :
    routeGeneratePasswordFromSeedCore sb p
      = (generatePasswordFromSeedCore sb p).map Prod.fst := by
  simp only [routeGeneratePasswordFromSeedCore, generatePasswordFromSeedCore]
  split_ifs <;> simp [Except.map, assemblePassword_const hb]

/-! ### Claim theorems -/

deriving instance DecidableEq for Except

/-- C3: the Upper alphabet indeed contains no O and the Digit alphabet
contains neither 0 nor 1, but the Lower alphabet is the full a-z and does
contain the letter l, contradicting both the spec and the code's own comment.
This theorem records the code's actual constants at the divergent point. -/
theorem charset_lowercase_contains_l :
    'O' ∉ CHARSETS.uppercase.toList ∧ 'l' ∈ CHARSETS.lowercase.toList
      ∧ '0' ∉ CHARSETS.numbers.toList ∧ '1' ∉ CHARSETS.numbers.toList := by
  decide

/-- C4: evaluating the library function at the empty seed string with a valid
constraint specification: no InvalidSeed error exists anywhere in the code;
every drawn byte is 0 (undefined coerced by the Uint8Array) and a password is
returned. -/
theorem empty_seed_returns_password :
    generatePasswordFromSeed ""
      ⟨8, 2, 2, 2, 2, true, true, true, true⟩ = .ok "Aaa22!!A" := by
  decide

/-- C9: on the all-zero 32-byte seed with L=8, minUpper=2 and every class
enabled, every drawn byte is 0 and the library returns exactly AAAAAAAA. -/
theorem zero_seed_fixture :
    generatePasswordFromSeed
      "0000000000000000000000000000000000000000000000000000000000000000"
      ⟨8, 2, 0, 0, 0, true, true, true, true⟩ = .ok "AAAAAAAA" := by
  decide

/-- C1 counterexample: on the two-byte seed 0x00 0x01 with L=8, minUpper=2
and every class enabled, neither implementation throws, yet the route version
returns AAAAAAAA while the library version returns ABABABBA. -/
theorem route_lib_divergence_cex :
    routeGeneratePasswordFromSeed "0001"
        ⟨8, 2, 0, 0, 0, true, true, true, true⟩ = .ok "AAAAAAAA"
      ∧ generatePasswordFromSeed "0001"
        ⟨8, 2, 0, 0, 0, true, true, true, true⟩ = .ok "ABABABBA"
      ∧ ("AAAAAAAA" : String) ≠ "ABABABBA" := by
  refine ⟨by decide, by decide, by decide⟩

/-- C2: the library generator is a stateful cursor: across any sequence of
draw calls, the byte at logical position i (counted from construction)
equals seed[i mod len(seed)]. -/
theorem seedStream_cyclic (sb : List Nat) (hsb : sb ≠ []) (calls : List Nat)
    (i : Nat) (hi : i < (runCalls sb calls 0).1.length) :
    (runCalls sb calls 0).1.getD i 0 = sb.getD (i % sb.length) 0 := by
  simpa using runCalls_fst_getD sb calls 0 i hi

theorem seedStream_cyclic_witness :
    (runCalls [7, 9] [2, 3] 0).1.getD 3 0 = [7, 9].getD (3 % 2) 0 :=
  seedStream_cyclic [7, 9] (by decide) [2, 3] 3 (by decide)

/-- C5: validation happens before any drawing and in source order: no class
enabled reports the no-class error even when the minimums also exceed the
length; the minimums-exceed-length check fires second; the four
minimum-without-class checks fire last, in canonical order. -/
theorem validation_order (seed : String) (p : GenerateParams) :
    (p.includeUpper = false ∧ p.includeLower = false
        ∧ p.includeNumbers = false ∧ p.includeSymbols = false →
      generatePasswordFromSeed seed p = .error .atLeastOneCharacterType)
    ∧ ((p.includeUpper = true ∨ p.includeLower = true
        ∨ p.includeNumbers = true ∨ p.includeSymbols = true) →
      p.length < p.minUpper + p.minLower + p.minNumbers + p.minSymbols →
      generatePasswordFromSeed seed p = .error .minimumsExceedLength)
    ∧ ((p.includeUpper = true ∨ p.includeLower = true
        ∨ p.includeNumbers = true ∨ p.includeSymbols = true) →
      p.minUpper + p.minLower + p.minNumbers + p.minSymbols ≤ p.length →
      p.minUpper > 0 → p.includeUpper = false →
      generatePasswordFromSeed seed p = .error .upperMinWithoutUpper)
    ∧ ((p.includeUpper = true ∨ p.includeLower = true
        ∨ p.includeNumbers = true ∨ p.includeSymbols = true) →
      p.minUpper + p.minLower + p.minNumbers + p.minSymbols ≤ p.length →
      ¬(p.minUpper > 0 ∧ p.includeUpper = false) →
      p.minLower > 0 → p.includeLower = false →
      generatePasswordFromSeed seed p = .error .lowerMinWithoutLower) := by
  refine ⟨?_, ?_, ?_, ?_⟩
  · intro h
    simp only [generatePasswordFromSeed, generatePasswordFromSeedCore,
      if_pos h]
  · intro hone hlt
    have hc1 : ¬(p.includeUpper = false ∧ p.includeLower = false
        ∧ p.includeNumbers = false ∧ p.includeSymbols = false) := by
      intro hcontr
      rcases hone with h' | h' | h' | h' <;> simp [h'] at hcontr
    simp only [generatePasswordFromSeed, generatePasswordFromSeedCore,
      if_neg hc1, if_pos (show p.minUpper + p.minLower + p.minNumbers
        + p.minSymbols > p.length by omega)]
  · intro hone hle hmu hinc
    have hc1 : ¬(p.includeUpper = false ∧ p.includeLower = false
        ∧ p.includeNumbers = false ∧ p.includeSymbols = false) := by
      intro hcontr
      rcases hone with h' | h' | h' | h' <;> simp [h'] at hcontr
    have hc2 : ¬(p.minUpper + p.minLower + p.minNumbers + p.minSymbols
        > p.length) := by omega
    simp only [generatePasswordFromSeed, generatePasswordFromSeedCore,
      if_neg hc1, if_neg hc2, if_pos (show p.minUpper > 0
        ∧ p.includeUpper = false from ⟨hmu, hinc⟩)]
  · intro hone hle hnu hml hinc
    have hc1 : ¬(p.includeUpper = false ∧ p.includeLower = false
        ∧ p.includeNumbers = false ∧ p.includeSymbols = false) := by
      intro hcontr
      rcases hone with h' | h' | h' | h' <;> simp [h'] at hcontr
    have hc2 : ¬(p.minUpper + p.minLower + p.minNumbers + p.minSymbols
        > p.length) := by omega
    simp only [generatePasswordFromSeed, generatePasswordFromSeedCore,
      if_neg hc1, if_neg hc2, if_neg hnu, if_pos (show p.minLower > 0
        ∧ p.includeLower = false from ⟨hml, hinc⟩)]

theorem validation_order_witness :
    generatePasswordFromSeed "00" ⟨8, 5, 5, 0, 0, false, false, false, false⟩
      = .error .atLeastOneCharacterType :=
  (validation_order "00" ⟨8, 5, 5, 0, 0, false, false, false, false⟩).1
    (by decide)

/-- C6: for every seed decoding to non-empty bytes and every valid
constraint specification, the returned password has length exactly L. -/
theorem password_length_eq_spec (seed : String) (p : GenerateParams)
    (hseed : decodeHex seed.toList ≠ [])
    (h0u : 0 ≤ p.minUpper) (h0l : 0 ≤ p.minLower) (h0n : 0 ≤ p.minNumbers)
    (h0s : 0 ≤ p.minSymbols)
    (hsum : p.minUpper + p.minLower + p.minNumbers + p.minSymbols ≤ p.length)
    (hone : p.includeUpper = true ∨ p.includeLower = true
      ∨ p.includeNumbers = true ∨ p.includeSymbols = true)
    (hiu : p.minUpper > 0 → p.includeUpper = true)
    (hil : p.minLower > 0 → p.includeLower = true)
    (hin : p.minNumbers > 0 → p.includeNumbers = true)
    (his : p.minSymbols > 0 → p.includeSymbols = true) :
    ∃ pw : String, generatePasswordFromSeed seed p = .ok pw
      ∧ (pw.length : Int) = p.length := by
  refine ⟨String.mk (assemblePassword (decodeHex seed.toList) p).1, ?_, ?_⟩
  · simp only [generatePasswordFromSeed,
      core_valid _ p hone hsum hiu hil hin his]
  · show (((assemblePassword (decodeHex seed.toList) p).1.length : Nat) : Int)
      = p.length
    rw [assemblePassword_fst_length _ p h0u h0l h0n h0s hsum]
    omega

theorem password_length_eq_spec_witness :
    ∃ pw : String, generatePasswordFromSeed "ff"
        ⟨8, 2, 0, 0, 0, true, true, true, true⟩ = .ok pw
      ∧ (pw.length : Int) = 8 :=
  password_length_eq_spec "ff" ⟨8, 2, 0, 0, 0, true, true, true, true⟩
    (by decide) (by decide) (by decide) (by decide) (by decide) (by decide)
    (by decide) (by decide) (by decide) (by decide) (by decide)

/-- C7: for every seed decoding to non-empty bytes and every valid
constraint specification, each enabled class's alphabet characters occur in
the returned password at least the class's specified minimum number of
times. -/
theorem password_minimum_counts (seed : String) (p : GenerateParams)
    (hseed : decodeHex seed.toList ≠ [])
    (h0u : 0 ≤ p.minUpper) (h0l : 0 ≤ p.minLower) (h0n : 0 ≤ p.minNumbers)
    (h0s : 0 ≤ p.minSymbols)
    (hsum : p.minUpper + p.minLower + p.minNumbers + p.minSymbols ≤ p.length)
    (hone : p.includeUpper = true ∨ p.includeLower = true
      ∨ p.includeNumbers = true ∨ p.includeSymbols = true)
    (hiu : p.minUpper > 0 → p.includeUpper = true)
    (hil : p.minLower > 0 → p.includeLower = true)
    (hin : p.minNumbers > 0 → p.includeNumbers = true)
    (his : p.minSymbols > 0 → p.includeSymbols = true) :
    ∃ pw : String, generatePasswordFromSeed seed p = .ok pw
      ∧ (p.includeUpper = true → p.minUpper.toNat ≤ pw.toList.countP
          fun c => decide (c ∈ CHARSETS.uppercase.toList))
      ∧ (p.includeLower = true → p.minLower.toNat ≤ pw.toList.countP
          fun c => decide (c ∈ CHARSETS.lowercase.toList))
      ∧ (p.includeNumbers = true → p.minNumbers.toNat ≤ pw.toList.countP
          fun c => decide (c ∈ CHARSETS.numbers.toList))
      ∧ (p.includeSymbols = true → p.minSymbols.toNat ≤ pw.toList.countP
          fun c => decide (c ∈ CHARSETS.symbols.toList)) := by
  refine ⟨String.mk (assemblePassword (decodeHex seed.toList) p).1,
    ?_, ?_, ?_, ?_, ?_⟩
  · simp only [generatePasswordFromSeed,
      core_valid _ p hone hsum hiu hil hin his]
  · intro h
    exact assemblePassword_countP_upper _ p
  · intro h
    exact assemblePassword_countP_lower _ p
  · intro h
    exact assemblePassword_countP_numbers _ p
  · intro h
    exact assemblePassword_countP_symbols _ p

theorem password_minimum_counts_witness :
    ∃ pw : String, generatePasswordFromSeed "ff"
        ⟨8, 2, 3, 0, 0, true, true, true, true⟩ = .ok pw
      ∧ (true = true → (2 : Int).toNat ≤ pw.toList.countP
          fun c => decide (c ∈ CHARSETS.uppercase.toList))
      ∧ (true = true → (3 : Int).toNat ≤ pw.toList.countP
          fun c => decide (c ∈ CHARSETS.lowercase.toList))
      ∧ (true = true → (0 : Int).toNat ≤ pw.toList.countP
          fun c => decide (c ∈ CHARSETS.numbers.toList))
      ∧ (true = true → (0 : Int).toNat ≤ pw.toList.countP
          fun c => decide (c ∈ CHARSETS.symbols.toList)) :=
  password_minimum_counts "ff" ⟨8, 2, 3, 0, 0, true, true, true, true⟩
    (by decide) (by decide) (by decide) (by decide) (by decide) (by decide)
    (by decide) (by decide) (by decide) (by decide) (by decide)

/-- C8: one synthesis call under a valid specification with L at least 1
advances the seed-stream position by exactly 2L-1 bytes, regardless of which
classes are enabled. -/
theorem seed_bytes_consumed (sb : List Nat) (p : GenerateParams)
    (hsb : sb ≠ [])
    (h0u : 0 ≤ p.minUpper) (h0l : 0 ≤ p.minLower) (h0n : 0 ≤ p.minNumbers)
    (h0s : 0 ≤ p.minSymbols)
    (hsum : p.minUpper + p.minLower + p.minNumbers + p.minSymbols ≤ p.length)
    (hone : p.includeUpper = true ∨ p.includeLower = true
      ∨ p.includeNumbers = true ∨ p.includeSymbols = true)
    (hiu : p.minUpper > 0 → p.includeUpper = true)
    (hil : p.minLower > 0 → p.includeLower = true)
    (hin : p.minNumbers > 0 → p.includeNumbers = true)
    (his : p.minSymbols > 0 → p.includeSymbols = true)
    (hL : 1 ≤ p.length) :
    ∃ r : List Char × Nat, generatePasswordFromSeedCore sb p = .ok r
      ∧ (r.2 : Int) = 2 * p.length - 1 := by
  refine ⟨assemblePassword sb p,
    core_valid sb p hone hsum hiu hil hin his, ?_⟩
  rw [assemblePassword_snd sb p h0u h0l h0n h0s hsum]
  omega

theorem seed_bytes_consumed_witness :
    ∃ r : List Char × Nat, generatePasswordFromSeedCore [0]
        ⟨8, 2, 0, 0, 0, true, true, true, true⟩ = .ok r
      ∧ (r.2 : Int) = 2 * 8 - 1 :=
  seed_bytes_consumed [0] ⟨8, 2, 0, 0, 0, true, true, true, true⟩
    (by decide) (by decide) (by decide) (by decide) (by decide) (by decide)
    (by decide) (by decide) (by decide) (by decide) (by decide) (by decide)

/-- C10: in the route version every draw re-indexes from 0 and requests one
byte, so the output depends on no decoded seed byte beyond the first: two
non-empty decoded seeds with equal first bytes give identical results. -/
theorem route_output_depends_only_on_first_byte (sb1 sb2 : List Nat)
    (p : GenerateParams) (h1 : sb1 ≠ []) (h2 : sb2 ≠ [])
    (h : sb1.getD 0 0 = sb2.getD 0 0) :
    routeGeneratePasswordFromSeedCore sb1 p
      = routeGeneratePasswordFromSeedCore sb2 p :=
  routeCore_congr (by rw [routeDraw1_eq, routeDraw1_eq, h]) p

theorem route_output_depends_only_on_first_byte_witness :
    routeGeneratePasswordFromSeedCore [3, 1]
        ⟨8, 2, 0, 0, 0, true, true, true, true⟩
      = routeGeneratePasswordFromSeedCore [3, 250, 250]
        ⟨8, 2, 0, 0, 0, true, true, true, true⟩ :=
  route_output_depends_only_on_first_byte [3, 1] [3, 250, 250]
    ⟨8, 2, 0, 0, 0, true, true, true, true⟩
    (by decide) (by decide) (by decide)

/-- C1 amended: the route function and the library function agree whenever
every byte of the decoded seed equals its first byte (constant or single-byte
seeds); the counterexample above shows they differ on general seeds. -/
theorem route_lib_agree_on_constant_seed (seed : String) (p : GenerateParams)
    (h : ∀ k, k < (decodeHex seed.toList).length →
      (decodeHex seed.toList).getD k 0 = (decodeHex seed.toList).getD 0 0) :
    routeGeneratePasswordFromSeed seed p = generatePasswordFromSeed seed p := by
  have hb : ∀ position, (decodeHex seed.toList).getD
      (position % (decodeHex seed.toList).length) 0
      = routeDraw1 (decodeHex seed.toList) :=
    fun position => seedByte_const h position
  simp only [routeGeneratePasswordFromSeed, generatePasswordFromSeed,
    core_const hb]
  cases generatePasswordFromSeedCore (decodeHex seed.toList) p with
  | ok r => simp [Except.map]
  | error e => simp [Except.map]

theorem route_lib_agree_on_constant_seed_witness :
    routeGeneratePasswordFromSeed "0707"
        ⟨8, 2, 0, 0, 0, true, true, true, true⟩
      = generatePasswordFromSeed "0707"
        ⟨8, 2, 0, 0, 0, true, true, true, true⟩ :=
  route_lib_agree_on_constant_seed "0707"
    ⟨8, 2, 0, 0, 0, true, true, true, true⟩ (by decide)
